import Mathlib

/-!
Shallow embedding of `tools/repair.py` (md_docs): broken-link discovery,
classification and repair for a corpus of Markdown documents.

Conventions:
* Python strings are `List Char`; a text file's on-disk bytes are the
  concatenation of its stored lines (lines keep their trailing newline: the
  source writes `fo.write(line)` for each stored line, adding nothing).
* File-system paths are lists of path components (`List String`); document
  identifiers are already-resolved absolute paths.
* The file system is a finite association list from paths to file bytes plus
  the set of paths the process cannot open for writing; `exists()` is
  membership.  Python floats are modelled as exact rationals.
-/

namespace Repair

/-- A relative-link occurrence: the `dict` produced by the upstream regex in
`md_docs.document` (an external collaborator).  Only the `"md"` group — the
raw relative path portion of the link, anchor fragment excluded — is consulted
by the code under verification (`repair.py` uses `url["md"]` alone), so it is
the only field carried here; `full`, `text`, the spans and the section
attribute are never read by these functions. -/
structure Url where
  md : List Char
deriving DecidableEq, Repr

/-- A broken-link record: zero-based line number paired with the link data,
exactly the tuples produced by `MarkdownDocument.relative_links()` and
consumed by `repair.py`. -/
abbrev Problem := Nat × Url

/-- Modelled from the spec: `MarkdownDocument` (from `md_docs.document`, not
included in the sources) exposes an identifier path (`filename`), a mutable
ordered line sequence (`contents`), and a method producing the sequence of
relative-link occurrences (`relative_links()`), here the field `rel_links`.
`filename` is an already-resolved absolute path: a list of components with no
`.` or `..` entries; its last component is the base name. -/
structure Document where
  filename : List String
  contents : List (List Char)
  rel_links : List Problem
deriving DecidableEq, Repr

/-- An I/O failure raised while opening a file for writing (Python `OSError`),
carrying the offending path. -/
structure IOErr where
  path : List String
deriving DecidableEq, Repr

/-- The file system: existing files with their on-disk bytes, and the paths
that cannot be opened for writing (opening one raises an `IOErr`). -/
structure FileSystem where
  files : List (List String × List Char)
  readonly : List (List String)
deriving DecidableEq, Repr

/-- Split a raw link string at `/` separators (no normalisation yet). -/
def splitSlash : List Char → List (List Char)
  | [] => [[]]
  | c :: cs =>
    if c = '/' then [] :: splitSlash cs
    else
      match splitSlash cs with
      | [] => [[c]]
      | seg :: rest => (c :: seg) :: rest

/-- The normalised components of a relative link string, as `pathlib` parses
them: empty segments (duplicate or trailing slashes) and `.` segments are
dropped; `..` segments are kept (pathlib does not resolve them lexically). -/
def pathComponentsC (s : List Char) : List (List Char) :=
  (splitSlash s).filter fun seg => !(seg == [] || seg == ['.'])

/-- `Path(s).name` for a relative link string `s`: the final normalised
component (`pathlib` returns `parts[-1]`, or the empty string when there are
no parts). -/
def pathName (s : List Char) : List Char :=
  (pathComponentsC s).getLastD []

/-- The components of a relative link string as path components. -/
def relComponents (s : List Char) : List String :=
  (pathComponentsC s).map fun seg => String.mk seg

/-- `Path.resolve()` on an absolute component list: `..` pops a component (at
the root it vanishes, as on POSIX); symlinks are not modelled. `.` components
were already dropped during parsing. -/
def resolvePath (parts : List String) : List String :=
  parts.foldl (fun acc c => if c = ".." then acc.dropLast else acc ++ [c]) []

/-- `Path.exists()`: membership among the file system's files.  (Directories
are not modelled; the checked targets are document files.) -/
def fsExists (fs : FileSystem) (p : List String) : Bool :=
  fs.files.any fun f => f.1 == p

/-- `find_broken_urls` (repair.py:72-108): walk the document's relative links;
join each raw target to the document's own directory (`md.filename.parent`),
resolve, and collect the links whose resolved target does not exist.  The
Python `for`-loop with `problems.append(rurl)` is a `foldl` that appends. -/
def find_broken_urls (md : Document) (fs : FileSystem) : List Problem :=
  md.rel_links.foldl
    (fun problems rurl =>
      if !(fsExists fs (resolvePath (md.filename.dropLast ++ relComponents rurl.2.md))) then
        problems ++ [rurl]
      else
        problems)
    []

theorem foldl_append_if_eq_filter {α : Type} (p : α → Bool) :
    ∀ (l acc : List α),
      l.foldl (fun acc x => if p x then acc ++ [x] else acc) acc = acc ++ l.filter p
  | [], acc => by simp
  | x :: l, acc => by
    by_cases h : p x <;>
      simp [List.foldl_cons, h, foldl_append_if_eq_filter p l, List.filter_cons]

/-- C7: `find_broken_urls` returns exactly those relative link occurrences
whose target, resolved against the document's own directory, does not exist on
the file system — each paired with its zero-based line number, in document
order (a filter of the document's link sequence); links whose resolved target
exists are not returned.  The function reads and never writes: it takes the
document and file system as values and only builds a list. -/
theorem find_broken_urls_eq_filter (md : Document) (fs : FileSystem) :
    find_broken_urls md fs =
      md.rel_links.filter fun rurl =>
        !(fsExists fs (resolvePath (md.filename.dropLast ++ relComponents rurl.2.md))) := by
  unfold find_broken_urls
  simpa using
    foldl_append_if_eq_filter
      (fun rurl =>
        !(fsExists fs (resolvePath (md.filename.dropLast ++ relComponents rurl.2.md))))
      md.rel_links []

/-! ### difflib: `SequenceMatcher.ratio` and `get_close_matches`

`classify_broken_urls` calls `difflib.get_close_matches(key, lookup.keys(),
cutoff=0.8)` (candidate cap left at its default `n = 3`).  The relevant parts
of CPython's `difflib` are embedded below.  `get_close_matches` keeps the
possibilities with `SequenceMatcher.ratio() >= cutoff` (its
`real_quick_ratio`/`quick_ratio` pre-tests are upper bounds of `ratio`, so
they do not change the accepted set) and returns
`heapq.nlargest(n, [(ratio, x), ...])` — a stable descending sort by the
`(score, string)` pair followed by `take n`.  Float scores are modelled as
exact rationals.
-/

/-- Python `dict.get(k, 0)` for a `Nat`-keyed association list. -/
def natGet (m : List (Nat × Nat)) (k : Nat) : Nat :=
  match m.find? fun e => e.1 == k with
  | some e => e.2
  | none => 0

/-- Append index `i` to the entry of `c` (creating it at the end), preserving
insertion order, as `b2j.setdefault(elt, []).append(i)` does. -/
def addIdx : List (Char × List Nat) → Char → Nat → List (Char × List Nat)
  | [], c, i => [(c, [i])]
  | e :: rest, c, i =>
    if e.1 = c then (e.1, e.2 ++ [i]) :: rest else e :: addIdx rest c i

/-- `SequenceMatcher.__chain_b`: map each element of `b` to its ascending list
of indices in `b`.  `isjunk` is `None` under `get_close_matches`, so `bjunk`
is empty; with `autojunk`, when `len(b) >= 200` the popular elements (more
than `len(b) // 100 + 1` occurrences) are purged from `b2j`. -/
def chainB (b : List Char) : List (Char × List Nat) :=
  let raw := (List.range b.length).foldl (fun m i => addIdx m (b.getD i ' ') i) []
  if 200 ≤ b.length then raw.filter fun e => decide (e.2.length ≤ b.length / 100 + 1)
  else raw

/-- Python `b2j.get(c, [])`. -/
def b2jGet (m : List (Char × List Nat)) (c : Char) : List Nat :=
  match m.find? fun e => e.1 == c with
  | some e => e.2
  | none => []

/-- One row `i` of the `find_longest_match` dynamic programme: walk the match
positions `js` of `a[i]` inside the window, building the new `j2len` and
improving the best `(besti, bestj, bestsize)` (strict improvement only:
`if k > bestsize`). -/
def flmRow (i : Nat) (j2len : List (Nat × Nat)) (js : List Nat)
    (best : Nat × Nat × Nat) : List (Nat × Nat) × (Nat × Nat × Nat) :=
  js.foldl
    (fun acc j =>
      let k := (if j = 0 then 0 else natGet j2len (j - 1)) + 1
      let b := acc.2
      ( acc.1 ++ [(j, k)],
        if b.2.2 < k then (i + 1 - k, j + 1 - k, k) else b ))
    ([], best)

/-- The row loop of `find_longest_match`, from `i = alo` for `ahi - alo`
rows.  Python's `if j < blo: continue / if j >= bhi: break` over the ascending
index list is the filter to `blo <= j < bhi`. -/
def flmLoop (a : List Char) (b2j : List (Char × List Nat)) (blo bhi : Nat) :
    Nat → Nat → List (Nat × Nat) → (Nat × Nat × Nat) → Nat × Nat × Nat
  | _, 0, _, best => best
  | i, fuel + 1, j2len, best =>
    let js := (b2jGet b2j (a.getD i ' ')).filter fun j => decide (blo ≤ j) && decide (j < bhi)
    let step := flmRow i j2len js best
    flmLoop a b2j blo bhi (i + 1) fuel step.1 step.2

/-- The left extension `while besti > alo and bestj > blo and
a[besti-1] == b[bestj-1]` (the junk variant never fires: `bjunk` is empty).
`fuel = besti` bounds the iterations. -/
def extendL (a b : List Char) (alo blo : Nat) :
    Nat → (Nat × Nat × Nat) → Nat × Nat × Nat
  | 0, best => best
  | fuel + 1, (bi, bj, bs) =>
    if alo < bi ∧ blo < bj ∧ a.getD (bi - 1) ' ' = b.getD (bj - 1) ' ' then
      extendL a b alo blo fuel (bi - 1, bj - 1, bs + 1)
    else (bi, bj, bs)

/-- The right extension `while besti+bestsize < ahi and bestj+bestsize < bhi
and a[besti+bestsize] == b[bestj+bestsize]`.  `fuel = ahi` bounds it. -/
def extendR (a b : List Char) (ahi bhi : Nat) :
    Nat → (Nat × Nat × Nat) → Nat × Nat × Nat
  | 0, best => best
  | fuel + 1, (bi, bj, bs) =>
    if bi + bs < ahi ∧ bj + bs < bhi ∧ a.getD (bi + bs) ' ' = b.getD (bj + bs) ' ' then
      extendR a b ahi bhi fuel (bi, bj, bs + 1)
    else (bi, bj, bs)

/-- `SequenceMatcher.find_longest_match(alo, ahi, blo, bhi)` with empty junk
(`isjunk=None`): the DP rows, then the equal-element extensions. -/
def find_longest_match (a b : List Char) (b2j : List (Char × List Nat))
    (alo ahi blo bhi : Nat) : Nat × Nat × Nat :=
  let best := flmLoop a b2j blo bhi alo (ahi - alo) [] (alo, blo, 0)
  let best := extendL a b alo blo best.1 best
  extendR a b ahi bhi ahi best

/-- Total size of the blocks `get_matching_blocks` finds inside the window
`[alo,ahi) × [blo,bhi)`: the longest match plus the totals of the regions to
its left and right (`difflib`'s work queue, whose pop order does not affect
the sum).  Every recursive call strictly shrinks `ahi - alo` (the returned
`i` satisfies `alo ≤ i` and `i + k ≤ ahi` with `k ≥ 1`), so `ahi - alo`
levels of fuel suffice; callers pass a surplus. -/
def matchTotal (a b : List Char) (b2j : List (Char × List Nat)) :
    Nat → Nat → Nat → Nat → Nat → Nat
  | 0, _, _, _, _ => 0
  | fuel + 1, alo, ahi, blo, bhi =>
    let m := find_longest_match a b b2j alo ahi blo bhi
    let i := m.1
    let j := m.2.1
    let k := m.2.2
    if k = 0 then 0
    else
      k + (if alo < i ∧ blo < j then matchTotal a b b2j fuel alo i blo j else 0) +
        (if i + k < ahi ∧ j + k < bhi then matchTotal a b b2j fuel (i + k) ahi (j + k) bhi
         else 0)

/-- `SequenceMatcher(None, a, b).ratio()`: `2*M/T` with `M` the total
matching-block size and `T = len(a) + len(b)` (`mkRat (2*M) T` is exactly that
quotient), and `1.0` when `T = 0`. -/
def sequenceRatio (a b : List Char) : Rat :=
  let m := matchTotal a b (chainB b) (a.length + 1) 0 a.length 0 b.length
  if a.length + b.length = 0 then 1
  else mkRat (2 * m) (a.length + b.length)

/-- The descending order `heapq.nlargest` induces on the `(score, string)`
pairs: `x` precedes `y` when `y` is lexicographically below `x`, ties (equal
pairs) keeping their original order under a stable sort. -/
def pairGe (x y : Rat × List Char) : Prop :=
  y.1 < x.1 ∨ (y.1 = x.1 ∧ y.2 ≤ x.2)

instance : DecidableRel pairGe := fun x y => by unfold pairGe; infer_instance

instance : IsTotal (Rat × List Char) pairGe where
  total x y := by
    rcases lt_trichotomy x.1 y.1 with h | h | h
    · exact Or.inr (Or.inl h)
    · rcases le_total x.2 y.2 with h2 | h2
      · exact Or.inr (Or.inr ⟨h, h2⟩)
      · exact Or.inl (Or.inr ⟨h.symm, h2⟩)
    · exact Or.inl (Or.inl h)

instance : IsTrans (Rat × List Char) pairGe where
  trans x y z hxy hyz := by
    rcases hxy with h1 | ⟨e1, l1⟩
    · rcases hyz with h2 | ⟨e2, l2⟩
      · exact Or.inl (h2.trans h1)
      · exact Or.inl (e2 ▸ h1)
    · rcases hyz with h2 | ⟨e2, l2⟩
      · exact Or.inl (e1 ▸ h2)
      · exact Or.inr ⟨e2.trans e1, l2.trans l1⟩

/-- `difflib.get_close_matches(word, possibilities, n, cutoff)`: keep the
possibilities whose ratio against `word` reaches `cutoff`; return the `n`
best, descending by `(ratio, string)`. -/
def get_close_matches (word : List Char) (possibilities : List (List Char))
    (n : Nat) (cutoff : Rat) : List (List Char) :=
  let scored := possibilities.filterMap fun x =>
    if cutoff ≤ sequenceRatio x word then some (sequenceRatio x word, x) else none
  ((List.insertionSort pairGe scored).take n).map fun e => e.2

/-! ### `classify_broken_urls` (repair.py:111-200) -/

/-- The corpus index (the `lookup` dict built by `md_docs.document`'s
`document_lookup`): an association list from a base file name to the documents
sharing that base name; the list order models dict insertion order.  The
classifier consumes it as a parameter, exactly as the Python function does. -/
abbrev Lookup := List (List Char × List Document)

/-- Python `key in lookup` / `lookup[key]`. -/
def lookupFind (lookup : Lookup) (key : List Char) : Option (List Document) :=
  match lookup.find? fun e => e.1 == key with
  | some e => some e.2
  | none => none

/-- Python `lookup.keys()`, in dict (insertion) order. -/
def lookupKeys (lookup : Lookup) : List (List Char) :=
  lookup.map fun e => e.1

/-- The four buckets `classify_broken_urls` builds (repair.py:163-168). -/
structure Classified where
  no_matches : List (Problem × List Document)
  suggestions : List (Problem × List Document)
  exact_match : List (Problem × List Document)
  exact_matches : List (Problem × List Document)
deriving DecidableEq, Repr

/-- The body of the `for problem in broken_urls` loop (repair.py:170-198):
`key = Path(url["md"]).name`; a present key appends `(problem, matches)` to
`exact_match` when `len(matches) == 1` and to `exact_matches` otherwise
(`matches` is the copy `[match for match in lookup[key]]`, i.e. the key's
list); an absent key consults `get_close_matches(key, lookup.keys(),
cutoff=0.8)` (cap `n = 3` by default; `0.8` is exactly `8/10`) and appends to
`suggestions` — flattening every matched key's candidates, in match order —
when the result is non-empty (`if suggestions:`), else to `no_matches` with an
empty candidate list. -/
def classifyStep (lookup : Lookup) (results : Classified) (problem : Problem) :
    Classified :=
  let key := pathName problem.2.md
  match lookupFind lookup key with
  | some ms =>
    if ms.length = 1 then
      { results with exact_match := results.exact_match ++ [(problem, ms)] }
    else
      { results with exact_matches := results.exact_matches ++ [(problem, ms)] }
  | none =>
    let suggestions := get_close_matches key (lookupKeys lookup) 3 (mkRat 8 10)
    if suggestions.isEmpty then
      { results with no_matches := results.no_matches ++ [(problem, [])] }
    else
      { results with
          suggestions :=
            results.suggestions ++
              [(problem, suggestions.flatMap fun pk => (lookupFind lookup pk).getD [])] }

/-- `classify_broken_urls` (repair.py:111-200). -/
def classify_broken_urls (lookup : Lookup) (broken_urls : List Problem) :
    Classified :=
  broken_urls.foldl (classifyStep lookup) ⟨[], [], [], []⟩

/-- The `no_matches` outcome of one loop iteration, as a partial selector. -/
def selNo (lookup : Lookup) (p : Problem) : Option (Problem × List Document) :=
  match lookupFind lookup (pathName p.2.md) with
  | some _ => none
  | none =>
    if (get_close_matches (pathName p.2.md) (lookupKeys lookup) 3 (mkRat 8 10)).isEmpty then
      some (p, [])
    else none

/-- The `suggestions` outcome of one loop iteration. -/
def selSug (lookup : Lookup) (p : Problem) : Option (Problem × List Document) :=
  match lookupFind lookup (pathName p.2.md) with
  | some _ => none
  | none =>
    let s := get_close_matches (pathName p.2.md) (lookupKeys lookup) 3 (mkRat 8 10)
    if s.isEmpty then none
    else some (p, s.flatMap fun pk => (lookupFind lookup pk).getD [])

/-- The `exact_match` outcome of one loop iteration. -/
def selOne (lookup : Lookup) (p : Problem) : Option (Problem × List Document) :=
  match lookupFind lookup (pathName p.2.md) with
  | some ms => if ms.length = 1 then some (p, ms) else none
  | none => none

/-- The `exact_matches` outcome of one loop iteration. -/
def selMany (lookup : Lookup) (p : Problem) : Option (Problem × List Document) :=
  match lookupFind lookup (pathName p.2.md) with
  | some ms => if ms.length = 1 then none else some (p, ms)
  | none => none

theorem classify_foldl (lookup : Lookup) :
    ∀ (urls : List Problem) (acc : Classified),
      urls.foldl (classifyStep lookup) acc =
        ⟨acc.no_matches ++ urls.filterMap (selNo lookup),
          acc.suggestions ++ urls.filterMap (selSug lookup),
          acc.exact_match ++ urls.filterMap (selOne lookup),
          acc.exact_matches ++ urls.filterMap (selMany lookup)⟩
  | [], acc => by simp
  | p :: urls, acc => by
    rw [List.foldl_cons, classify_foldl lookup urls]
    rcases h : lookupFind lookup (pathName p.2.md) with _ | ms
    · by_cases h2 :
        (get_close_matches (pathName p.2.md) (lookupKeys lookup) 3 (mkRat 8 10)).isEmpty <;>
        simp [classifyStep, selNo, selSug, selOne, selMany, h, h2, List.filterMap_cons]
    · by_cases h1 : ms.length = 1 <;>
        simp [classifyStep, selNo, selSug, selOne, selMany, h, h1, List.filterMap_cons]

/-- The four buckets are the four selectors, filter-mapped over the input. -/
theorem classify_spec (lookup : Lookup) (urls : List Problem) :
    classify_broken_urls lookup urls =
      ⟨urls.filterMap (selNo lookup), urls.filterMap (selSug lookup),
        urls.filterMap (selOne lookup), urls.filterMap (selMany lookup)⟩ := by
  simpa using classify_foldl lookup urls ⟨[], [], [], []⟩

/-- C1: a broken link whose target base name is a key of the corpus index is
placed in the `exact_match` bucket (with its single candidate) when the key
maps to exactly one document, and in the `exact_matches` bucket carrying
exactly the key's `N` candidates when it maps to more than one. -/
theorem classify_exact_buckets (lookup : Lookup) (urls : List Problem)
    (p : Problem) (ms : List Document) (hp : p ∈ urls)
    (hfind : lookupFind lookup (pathName p.2.md) = some ms) :
    (ms.length = 1 → (p, ms) ∈ (classify_broken_urls lookup urls).exact_match) ∧
      (1 < ms.length → (p, ms) ∈ (classify_broken_urls lookup urls).exact_matches) := by
  rw [classify_spec]
  refine ⟨fun h1 => ?_, fun h2 => ?_⟩
  · exact List.mem_filterMap.mpr ⟨p, hp, by simp [selOne, hfind, h1]⟩
  · have hne : ¬ms.length = 1 := by omega
    exact List.mem_filterMap.mpr ⟨p, hp, by simp [selMany, hfind, hne]⟩

def docA : Document := ⟨["docs", "c", "a.md"], [], []⟩

def docB : Document := ⟨["docs", "d", "a.md"], [], []⟩

def urlA : Url := ⟨"../x/a.md".toList⟩

theorem classify_exact_buckets_witness :
    ((0, urlA) ∈ [((0 : Nat), urlA)] ∧
        lookupFind [("a.md".toList, [docA, docB])] (pathName urlA.md) =
          some [docA, docB] ∧
        1 < [docA, docB].length) ∧
      ((0, urlA), [docA, docB]) ∈
        (classify_broken_urls [("a.md".toList, [docA, docB])]
            [((0 : Nat), urlA)]).exact_matches :=
  ⟨⟨by decide, by decide, by decide⟩,
    (classify_exact_buckets [("a.md".toList, [docA, docB])] [((0 : Nat), urlA)]
        (0, urlA) [docA, docB] (by decide) (by decide)).2 (by decide)⟩

theorem get_close_matches_length_le (word : List Char)
    (possibilities : List (List Char)) (n : Nat) (cutoff : Rat) :
    (get_close_matches word possibilities n cutoff).length ≤ n := by
  unfold get_close_matches
  simp only [List.length_map, List.length_take]
  exact min_le_left _ _

theorem get_close_matches_mem (word : List Char) (possibilities : List (List Char))
    (n : Nat) (cutoff : Rat) (x : List Char)
    (hx : x ∈ get_close_matches word possibilities n cutoff) :
    x ∈ possibilities ∧ cutoff ≤ sequenceRatio x word := by
  unfold get_close_matches at hx
  obtain ⟨pr, hpr, hprx⟩ := List.mem_map.mp hx
  have h1 : pr ∈ List.insertionSort pairGe _ := (List.take_sublist n _).mem hpr
  have h2 := (List.mem_insertionSort pairGe).mp h1
  obtain ⟨a, ha, heq⟩ := List.mem_filterMap.mp h2
  by_cases hc : cutoff ≤ sequenceRatio a word
  · rw [if_pos hc] at heq
    injection heq with heq2
    subst heq2
    exact hprx ▸ ⟨ha, hc⟩
  · rw [if_neg hc] at heq
    exact absurd heq (by simp)

theorem get_close_matches_scores (word : List Char) (possibilities : List (List Char))
    (n : Nat) (cutoff : Rat) (pr : Rat × List Char)
    (hpr : pr ∈ (List.insertionSort pairGe
        (possibilities.filterMap fun x =>
          if cutoff ≤ sequenceRatio x word then some (sequenceRatio x word, x)
          else none)).take n) :
    pr.1 = sequenceRatio pr.2 word := by
  have h1 : pr ∈ List.insertionSort pairGe _ := (List.take_sublist n _).mem hpr
  obtain ⟨a, _, heq⟩ := List.mem_filterMap.mp ((List.mem_insertionSort pairGe).mp h1)
  by_cases hc : cutoff ≤ sequenceRatio a word
  · rw [if_pos hc] at heq
    injection heq with heq2
    subst heq2
    rfl
  · rw [if_neg hc] at heq
    exact absurd heq (by simp)

theorem get_close_matches_sorted (word : List Char)
    (possibilities : List (List Char)) (n : Nat) (cutoff : Rat) :
    (get_close_matches word possibilities n cutoff).Pairwise fun x y =>
      sequenceRatio y word ≤ sequenceRatio x word := by
  unfold get_close_matches
  refine List.pairwise_map.mpr ?_
  have hs : List.Pairwise pairGe
      (List.insertionSort pairGe
        (possibilities.filterMap fun x =>
          if cutoff ≤ sequenceRatio x word then some (sequenceRatio x word, x)
          else none)) :=
    List.sorted_insertionSort pairGe _
  refine (hs.take).imp_of_mem ?_
  intro a b ha hb hab
  have ea := get_close_matches_scores word possibilities n cutoff a ha
  have eb := get_close_matches_scores word possibilities n cutoff b hb
  have hle : b.1 ≤ a.1 := by
    rcases hab with h | ⟨h, _⟩
    · exact le_of_lt h
    · exact le_of_eq h
  rw [ea, eb] at hle
  exact hle

/-- C2: a broken link whose target base name is absent from the corpus index
is matched approximately against all index keys with similarity cutoff `0.8`
and at most `3` matched keys; when at least one key matches, the link lands in
the `suggestions` bucket carrying the concatenation of every matched key's
candidate documents, the matched keys being drawn from the index keys, each at
or above the cutoff, in descending similarity order; with no match it lands in
`no_matches` with an empty candidate list. -/
theorem classify_fuzzy_buckets (lookup : Lookup) (urls : List Problem)
    (p : Problem) (hp : p ∈ urls)
    (habs : lookupFind lookup (pathName p.2.md) = none) :
    (get_close_matches (pathName p.2.md) (lookupKeys lookup) 3 (mkRat 8 10) ≠ [] →
        (p, (get_close_matches (pathName p.2.md) (lookupKeys lookup) 3
              (mkRat 8 10)).flatMap fun pk => (lookupFind lookup pk).getD []) ∈
          (classify_broken_urls lookup urls).suggestions) ∧
      (get_close_matches (pathName p.2.md) (lookupKeys lookup) 3 (mkRat 8 10) = [] →
        (p, []) ∈ (classify_broken_urls lookup urls).no_matches) ∧
      (get_close_matches (pathName p.2.md) (lookupKeys lookup) 3 (mkRat 8 10)).length ≤ 3 ∧
      (∀ k ∈ get_close_matches (pathName p.2.md) (lookupKeys lookup) 3 (mkRat 8 10),
        k ∈ lookupKeys lookup ∧ mkRat 8 10 ≤ sequenceRatio k (pathName p.2.md)) ∧
      (get_close_matches (pathName p.2.md) (lookupKeys lookup) 3 (mkRat 8 10)).Pairwise
        fun k1 k2 =>
          sequenceRatio k2 (pathName p.2.md) ≤ sequenceRatio k1 (pathName p.2.md) := by
  refine ⟨fun hne => ?_, fun hemp => ?_, get_close_matches_length_le _ _ _ _,
    fun k hk => ?_, get_close_matches_sorted _ _ _ _⟩
  · rw [classify_spec]
    refine List.mem_filterMap.mpr ⟨p, hp, ?_⟩
    simp [selSug, habs, List.isEmpty_iff, hne]
  · rw [classify_spec]
    refine List.mem_filterMap.mpr ⟨p, hp, ?_⟩
    simp [selNo, habs, List.isEmpty_iff, hemp]
  · have h := get_close_matches_mem (pathName p.2.md) (lookupKeys lookup) 3 (mkRat 8 10) k hk
    exact ⟨h.1, h.2⟩

def docR : Document := ⟨["docs", "c", "report.md"], [], []⟩

def urlR : Url := ⟨"../a/reprt.md".toList⟩

theorem classify_fuzzy_buckets_witness :
    ((0, urlR) ∈ [((0 : Nat), urlR)] ∧
        lookupFind [("report.md".toList, [docR])] (pathName urlR.md) = none ∧
        get_close_matches (pathName urlR.md)
            (lookupKeys [("report.md".toList, [docR])]) 3 (mkRat 8 10) ≠ []) ∧
      ((0, urlR),
          (get_close_matches (pathName urlR.md)
              (lookupKeys [("report.md".toList, [docR])]) 3 (mkRat 8 10)).flatMap
            fun pk => (lookupFind [("report.md".toList, [docR])] pk).getD []) ∈
        (classify_broken_urls [("report.md".toList, [docR])]
            [((0 : Nat), urlR)]).suggestions :=
  ⟨⟨by decide, by decide, by decide⟩,
    (classify_fuzzy_buckets [("report.md".toList, [docR])] [((0 : Nat), urlR)]
        (0, urlR) (by decide) (by decide)).1 (by decide)⟩

/-- Membership of `p` (as an entry's problem component) in `no_matches`. -/
def inNoMatches (lookup : Lookup) (urls : List Problem) (p : Problem) : Prop :=
  ∃ cs, (p, cs) ∈ (classify_broken_urls lookup urls).no_matches

/-- Membership of `p` in `suggestions`. -/
def inSuggestions (lookup : Lookup) (urls : List Problem) (p : Problem) : Prop :=
  ∃ cs, (p, cs) ∈ (classify_broken_urls lookup urls).suggestions

/-- Membership of `p` in `exact_match`. -/
def inExactOne (lookup : Lookup) (urls : List Problem) (p : Problem) : Prop :=
  ∃ cs, (p, cs) ∈ (classify_broken_urls lookup urls).exact_match

/-- Membership of `p` in `exact_matches`. -/
def inExactMany (lookup : Lookup) (urls : List Problem) (p : Problem) : Prop :=
  ∃ cs, (p, cs) ∈ (classify_broken_urls lookup urls).exact_matches

theorem mem_filterMap_sel_iff (sel : Problem → Option (Problem × List Document))
    (hsel : ∀ q r, sel q = some r → r.1 = q) (urls : List Problem) (p : Problem) :
    (∃ cs, (p, cs) ∈ urls.filterMap sel) ↔ p ∈ urls ∧ ∃ cs, sel p = some (p, cs) := by
  constructor
  · rintro ⟨cs, h⟩
    obtain ⟨a, ha, heq⟩ := List.mem_filterMap.mp h
    have := hsel a (p, cs) heq
    simp only at this
    subst this
    exact ⟨ha, cs, heq⟩
  · rintro ⟨hp, cs, h⟩
    exact ⟨cs, List.mem_filterMap.mpr ⟨p, hp, h⟩⟩

theorem selNo_fst (lookup : Lookup) (q : Problem) (r : Problem × List Document)
    (h : selNo lookup q = some r) : r.1 = q := by
  unfold selNo at h
  rcases hf : lookupFind lookup (pathName q.2.md) with _ | ms <;> rw [hf] at h
  · by_cases he :
      (get_close_matches (pathName q.2.md) (lookupKeys lookup) 3 (mkRat 8 10)).isEmpty <;>
      simp [he] at h
    exact h.symm ▸ rfl
  · simp at h

theorem selSug_fst (lookup : Lookup) (q : Problem) (r : Problem × List Document)
    (h : selSug lookup q = some r) : r.1 = q := by
  unfold selSug at h
  rcases hf : lookupFind lookup (pathName q.2.md) with _ | ms <;> rw [hf] at h
  · by_cases he :
      (get_close_matches (pathName q.2.md) (lookupKeys lookup) 3 (mkRat 8 10)).isEmpty <;>
      simp [he] at h
    exact h.symm ▸ rfl
  · simp at h

theorem selOne_fst (lookup : Lookup) (q : Problem) (r : Problem × List Document)
    (h : selOne lookup q = some r) : r.1 = q := by
  unfold selOne at h
  rcases hf : lookupFind lookup (pathName q.2.md) with _ | ms <;> rw [hf] at h
  · simp at h
  · by_cases h1 : ms.length = 1 <;> simp [h1] at h
    exact h.symm ▸ rfl

theorem selMany_fst (lookup : Lookup) (q : Problem) (r : Problem × List Document)
    (h : selMany lookup q = some r) : r.1 = q := by
  unfold selMany at h
  rcases hf : lookupFind lookup (pathName q.2.md) with _ | ms <;> rw [hf] at h
  · simp at h
  · by_cases h1 : ms.length = 1 <;> simp [h1] at h
    exact h.symm ▸ rfl

theorem sel_length_sum (lookup : Lookup) :
    ∀ urls : List Problem,
      (urls.filterMap (selNo lookup)).length + (urls.filterMap (selSug lookup)).length +
          (urls.filterMap (selOne lookup)).length +
          (urls.filterMap (selMany lookup)).length =
        urls.length
  | [] => by simp
  | p :: urls => by
    have ih := sel_length_sum lookup urls
    rcases hf : lookupFind lookup (pathName p.2.md) with _ | ms
    · by_cases he :
        (get_close_matches (pathName p.2.md) (lookupKeys lookup) 3 (mkRat 8 10)).isEmpty <;>
        simp [List.filterMap_cons, selNo, selSug, selOne, selMany, hf, he] <;> omega
    · by_cases h1 : ms.length = 1 <;>
        simp [List.filterMap_cons, selNo, selSug, selOne, selMany, hf, h1] <;> omega

/-- C8: every broken link input to `classify_broken_urls` is placed in exactly
one of the four buckets: the buckets cover the input (every input problem
appears in some bucket, and the bucket sizes sum to the input length) and are
pairwise disjoint in the problems they carry. -/
theorem classify_partition (lookup : Lookup) (urls : List Problem) (p : Problem)
    (hp : p ∈ urls) :
    (inNoMatches lookup urls p ∨ inSuggestions lookup urls p ∨
        inExactOne lookup urls p ∨ inExactMany lookup urls p) ∧
      ¬(inNoMatches lookup urls p ∧ inSuggestions lookup urls p) ∧
      ¬(inNoMatches lookup urls p ∧ inExactOne lookup urls p) ∧
      ¬(inNoMatches lookup urls p ∧ inExactMany lookup urls p) ∧
      ¬(inSuggestions lookup urls p ∧ inExactOne lookup urls p) ∧
      ¬(inSuggestions lookup urls p ∧ inExactMany lookup urls p) ∧
      ¬(inExactOne lookup urls p ∧ inExactMany lookup urls p) ∧
      (classify_broken_urls lookup urls).no_matches.length +
          (classify_broken_urls lookup urls).suggestions.length +
          (classify_broken_urls lookup urls).exact_match.length +
          (classify_broken_urls lookup urls).exact_matches.length =
        urls.length := by
  have hno : inNoMatches lookup urls p ↔ p ∈ urls ∧ ∃ cs, selNo lookup p = some (p, cs) := by
    unfold inNoMatches
    rw [classify_spec]
    exact mem_filterMap_sel_iff (selNo lookup) (selNo_fst lookup) urls p
  have hsug : inSuggestions lookup urls p ↔
      p ∈ urls ∧ ∃ cs, selSug lookup p = some (p, cs) := by
    unfold inSuggestions
    rw [classify_spec]
    exact mem_filterMap_sel_iff (selSug lookup) (selSug_fst lookup) urls p
  have hone : inExactOne lookup urls p ↔ p ∈ urls ∧ ∃ cs, selOne lookup p = some (p, cs) := by
    unfold inExactOne
    rw [classify_spec]
    exact mem_filterMap_sel_iff (selOne lookup) (selOne_fst lookup) urls p
  have hmany : inExactMany lookup urls p ↔
      p ∈ urls ∧ ∃ cs, selMany lookup p = some (p, cs) := by
    unfold inExactMany
    rw [classify_spec]
    exact mem_filterMap_sel_iff (selMany lookup) (selMany_fst lookup) urls p
  have hsum : (classify_broken_urls lookup urls).no_matches.length +
      (classify_broken_urls lookup urls).suggestions.length +
      (classify_broken_urls lookup urls).exact_match.length +
      (classify_broken_urls lookup urls).exact_matches.length = urls.length := by
    rw [classify_spec]
    exact sel_length_sum lookup urls
  rw [hno, hsug, hone, hmany]
  rcases hf : lookupFind lookup (pathName p.2.md) with _ | ms
  · by_cases he :
      (get_close_matches (pathName p.2.md) (lookupKeys lookup) 3 (mkRat 8 10)).isEmpty <;>
      simp [selNo, selSug, selOne, selMany, hf, he, hp, hsum]
  · by_cases h1 : ms.length = 1 <;>
      simp [selNo, selSug, selOne, selMany, hf, h1, hp, hsum]

theorem classify_partition_witness :
    (0, urlA) ∈ [((0 : Nat), urlA)] ∧
      (inNoMatches [("a.md".toList, [docA, docB])] [((0 : Nat), urlA)] (0, urlA) ∨
        inSuggestions [("a.md".toList, [docA, docB])] [((0 : Nat), urlA)] (0, urlA) ∨
        inExactOne [("a.md".toList, [docA, docB])] [((0 : Nat), urlA)] (0, urlA) ∨
        inExactMany [("a.md".toList, [docA, docB])] [((0 : Nat), urlA)] (0, urlA)) :=
  ⟨by decide,
    (classify_partition [("a.md".toList, [docA, docB])] [((0 : Nat), urlA)]
        (0, urlA) (by decide)).1⟩

/-! ### `write_corrected_url` (repair.py:233-274) and the `links` loop -/

/-- The scan of Python `str.replace(old, new)` for a non-empty pattern, with
a skip counter consuming the tail of a just-replaced occurrence (structural
in the string; `replaceAllNE` below starts it at `0`). -/
def replAux (old new : List Char) : List Char → Nat → List Char
  | [], _ => []
  | _ :: cs, k + 1 => replAux old new cs k
  | c :: cs, 0 =>
    if old ≠ [] ∧ old.isPrefixOf (c :: cs) then
      new ++ replAux old new cs (old.length - 1)
    else c :: replAux old new cs 0

/-- Python `str.replace(old, new)` for a non-empty pattern, on character
lists: replace every non-overlapping occurrence of `old`, scanning left to
right. -/
def replaceAllNE (old new : List Char) (s : List Char) : List Char :=
  replAux old new s 0

theorem replAux_skip (old new : List Char) :
    ∀ (s : List Char) (k : Nat), replAux old new s k = replAux old new (s.drop k) 0
  | [], k => by cases k <;> simp [replAux]
  | c :: cs, 0 => by simp
  | c :: cs, k + 1 => by
    rw [show replAux old new (c :: cs) (k + 1) = replAux old new cs k from rfl,
      List.drop_succ_cons, replAux_skip old new cs k]

/-- Python `s.replace("", new)`: `new` goes before every character and at the
end (`"ab".replace("", "-") == "-a-b-"`).  Link targets are never empty, but
the case is kept for fidelity. -/
def replaceAllEmpty (new : List Char) (s : List Char) : List Char :=
  new ++ s.flatMap fun c => c :: new

/-- Python `str.replace(old, new)` with no count argument: every occurrence
is replaced. -/
def replaceAll (old new : List Char) (s : List Char) : List Char :=
  if old = [] then replaceAllEmpty new s else replaceAllNE old new s

/-- Following the claim's words only (not the source): substitute the first
occurrence of `old` and leave the rest of the line as it is — what
`str.replace(old, new, 1)` would do.  Used to state the counterexample for
the single-substitution claim; the code calls `str.replace` uncapped. -/
def replaceFirst (old new : List Char) : List Char → List Char
  | [] => []
  | c :: cs =>
    if old ≠ [] ∧ old.isPrefixOf (c :: cs) then new ++ cs.drop (old.length - 1)
    else c :: replaceFirst old new cs

/-- Modelled from the spec: `relative_path` (from `md_docs.common`, not
included in the sources) computes the relative path from the source
document's directory to the target document's directory — strip the common
prefix, then one `..` per remaining source component, then the remaining
target components. -/
def relative_path : List String → List String → List String
  | s :: ss, t :: ts =>
    if s = t then relative_path ss ts
    else (s :: ss).map (fun _ => "..") ++ t :: ts
  | ss, ts => ss.map (fun _ => "..") ++ ts

/-- `str()` of the `PurePath` assembled by `relative_path(...).joinpath(name)`:
the `/`-joined components.  (The argument is never empty: it ends in the
joined base name.) -/
def pathChars (parts : List String) : List Char :=
  (String.intercalate "/" parts).toList

/-- The outcome of one `write_corrected_url` call: the document (with its
in-memory `contents` as left by the rewrite loop), the file system after any
write, and the Python function's return value — the source has no `return`
statement, so a run that does not raise returns `None` (`none`); a returned
count would be `some k`. -/
structure WriteResult where
  doc : Document
  fs : FileSystem
  ret : Option Nat
deriving DecidableEq, Repr

/-- Replace or append the entry for `p` among the stored files. -/
def storeFile : List (List String × List Char) → List String → List Char →
    List (List String × List Char)
  | [], p, b => [(p, b)]
  | e :: rest, p, b => if e.1 = p then (p, b) :: rest else e :: storeFile rest p b

/-- `filename.open("w")` followed by writing every line: raises (`OSErr`)
when the path cannot be opened for writing, otherwise stores `bytes` as the
file's new on-disk contents. -/
def fsWrite (fs : FileSystem) (p : List String) (bytes : List Char) :
    Except IOErr FileSystem :=
  if p ∈ fs.readonly then Except.error ⟨p⟩
  else Except.ok { fs with files := storeFile fs.files p bytes }

/-- The body of the `for defect, matches in problems` loop
(repair.py:250-263): compute
`new_url = relative_path(md.filename.parent, matches[0].filename.parent)
             .joinpath(matches[0].filename.name)`,
build `new_line = md.contents[line].replace(url["md"], str(new_url))` and
store it back with `md.contents[line] = new_line`.  Indexing is modelled with
`getD`/`set`: the recorded line numbers are in range for the document that
produced them (Python would raise `IndexError` otherwise), and an empty
candidate list — impossible for `exact_match` entries — would raise
`IndexError` at `matches[0]`; the embedding leaves the document unchanged in
that unreachable case. -/
def repairStep (m : Document) (entry : Problem × List Document) : Document :=
  match entry.2 with
  | [] => m
  | tgt :: _ =>
    let line := entry.1.1
    let url := entry.1.2
    let new_url :=
      relative_path m.filename.dropLast tgt.filename.dropLast ++
        [tgt.filename.getLastD ""]
    let new_line := replaceAll url.md (pathChars new_url) (m.contents.getD line [])
    { m with contents := m.contents.set line new_line }

/-- `write_corrected_url` (repair.py:233-274): run the rewrite loop over the
entries, mutating the in-memory `contents`; then — only consulting `dry_run`
after the loop — either log (dry run: no file touched) or open the document's
file and write every mutated line (the file's new bytes are the lines'
concatenation).  The Python function returns `None` (`ret := none`); a raised
`OSError` is the `Except.error` case. -/
def write_corrected_url (md : Document) (problems : List (Problem × List Document))
    (dry_run : Bool) (fs : FileSystem) : Except IOErr WriteResult :=
  let mdm := problems.foldl repairStep md
  if dry_run then Except.ok ⟨mdm, fs, none⟩
  else (fsWrite fs mdm.filename mdm.contents.flatten).map fun fsn => ⟨mdm, fsn, none⟩

/-- The write-out loop of the `links` command (repair.py:410-418): the
documents holding `exact_match` entries are repaired in turn.  There is no
`try` around `write_corrected_url`, so a raised error propagates and aborts
the fold. -/
def repair_exact_matches
    (entries : List (Document × List (Problem × List Document))) (dry_run : Bool)
    (fs : FileSystem) : Except IOErr FileSystem :=
  entries.foldlM
    (fun fsn e => (write_corrected_url e.1 e.2 dry_run fsn).map fun r => r.fs) fs

theorem replaceAllNE_nil (old new : List Char) : replaceAllNE old new [] = [] := by
  simp [replaceAllNE, replAux]

theorem replaceAllNE_cons (old new : List Char) (c : Char) (cs : List Char) :
    replaceAllNE old new (c :: cs) =
      if old ≠ [] ∧ old.isPrefixOf (c :: cs) then
        new ++ replaceAllNE old new (cs.drop (old.length - 1))
      else c :: replaceAllNE old new cs := by
  unfold replaceAllNE
  rw [show replAux old new (c :: cs) 0 =
      if old ≠ [] ∧ old.isPrefixOf (c :: cs) then
        new ++ replAux old new cs (old.length - 1)
      else c :: replAux old new cs 0 from rfl,
    replAux_skip old new cs (old.length - 1)]

/-- The scan of `str.replace` passes `pre` through unchanged when no
occurrence of `old` starts inside `pre` (occurrences may look ahead past
`pre` into `t`). -/
theorem replaceAllNE_skip (old new : List Char) :
    ∀ pre t : List Char,
      (∀ i < pre.length, ¬old.isPrefixOf ((pre ++ t).drop i)) →
        replaceAllNE old new (pre ++ t) = pre ++ replaceAllNE old new t
  | [], t, _ => by simp
  | c :: pre, t, h => by
    have h0 : ¬old.isPrefixOf (c :: (pre ++ t)) := by
      simpa using h 0 (by simp)
    rw [List.cons_append, replaceAllNE_cons, if_neg fun hc => h0 hc.2,
      replaceAllNE_skip old new pre t fun i hi => by
        simpa [Nat.succ_lt_succ hi] using h (i + 1) (by simpa using Nat.succ_lt_succ hi)]
    simp

/-- The scan fires at an occurrence sitting at the head. -/
theorem replaceAllNE_head (old new t : List Char) (hne : old ≠ []) :
    replaceAllNE old new (old ++ t) = new ++ replaceAllNE old new t := by
  cases old with
  | nil => exact absurd rfl hne
  | cons c os =>
    have hpre : (c :: os).isPrefixOf (c :: (os ++ t)) :=
      List.isPrefixOf_iff_prefix.mpr (by simp)
    rw [List.cons_append, replaceAllNE_cons, if_pos ⟨hne, hpre⟩]
    simp [List.drop_left]

/-- With no occurrence at all, the scan is the identity. -/
theorem replaceAllNE_of_noOccur (old new : List Char) :
    ∀ t : List Char, (∀ i < t.length, ¬old.isPrefixOf (t.drop i)) →
      replaceAllNE old new t = t
  | [], _ => replaceAllNE_nil old new
  | c :: cs, h => by
    have h0 : ¬old.isPrefixOf (c :: cs) := by simpa using h 0 (by simp)
    rw [replaceAllNE_cons, if_neg fun hc => h0 hc.2,
      replaceAllNE_of_noOccur old new cs fun i hi => by
        simpa using h (i + 1) (by simpa using Nat.succ_lt_succ hi)]

/-- A successful `write_corrected_url` run carries the foldl-mutated
document. -/
theorem write_ok_doc (md : Document) (ps : List (Problem × List Document))
    (dry : Bool) (fs : FileSystem) (r : WriteResult)
    (h : write_corrected_url md ps dry fs = Except.ok r) :
    r.doc = ps.foldl repairStep md := by
  unfold write_corrected_url at h
  cases dry with
  | true =>
    simp only [if_pos] at h
    cases h
    rfl
  | false =>
    simp only [Bool.false_eq_true, if_neg] at h
    cases hw : fsWrite fs (ps.foldl repairStep md).filename
        (ps.foldl repairStep md).contents.flatten with
    | error e => rw [hw] at h; simp [Except.map] at h
    | ok fsn =>
      rw [hw] at h
      simp only [Except.map] at h
      cases h
      rfl

/-- A successful `write_corrected_url` run returns `None`. -/
theorem write_ok_ret_aux (md : Document) (ps : List (Problem × List Document))
    (dry : Bool) (fs : FileSystem) (r : WriteResult)
    (h : write_corrected_url md ps dry fs = Except.ok r) : r.ret = none := by
  unfold write_corrected_url at h
  cases dry with
  | true =>
    simp only [if_pos] at h
    cases h
    rfl
  | false =>
    simp only [Bool.false_eq_true, if_neg] at h
    cases hw : fsWrite fs (ps.foldl repairStep md).filename
        (ps.foldl repairStep md).contents.flatten with
    | error e => rw [hw] at h; simp [Except.map] at h
    | ok fsn =>
      rw [hw] at h
      simp only [Except.map] at h
      cases h
      rfl

/-- A dry run succeeds, with the file system passed through untouched. -/
theorem write_dry_run_eq (md : Document) (ps : List (Problem × List Document))
    (fs : FileSystem) :
    write_corrected_url md ps true fs = Except.ok ⟨ps.foldl repairStep md, fs, none⟩ := by
  unfold write_corrected_url
  simp

instance {e a : Type} [DecidableEq e] [DecidableEq a] : DecidableEq (Except e a) :=
  fun x y =>
    match x, y with
    | .error u, .error v =>
      if h : u = v then .isTrue (h ▸ rfl)
      else .isFalse fun hc => h (Except.error.inj hc)
    | .error _, .ok _ => .isFalse fun hc => Except.noConfusion hc
    | .ok _, .error _ => .isFalse fun hc => Except.noConfusion hc
    | .ok u, .ok v =>
      if h : u = v then .isTrue (h ▸ rfl)
      else .isFalse fun hc => h (Except.ok.inj hc)

/-- C3: for an `exact_one` entry, `write_corrected_url` computes the
replacement link as the relative path from the source document's directory to
the target document's directory, joined with the target document's base name,
and rewrites the owning line by substituting the old raw relative path
substring with the new one: when the raw target occurs exactly once in the
owning line (`pre ++ url.md ++ post` with no occurrence starting inside `pre`
and none inside `post`), the rewritten line is `pre ++ new ++ post` — the
link text (in `pre`), the anchor fragment and surrounding prose (in `post`)
are unchanged — and every other line of the document is untouched. -/
theorem write_corrected_url_rewrites_line (md : Document) (line : Nat)
    (url : Url) (tgt : Document) (dry : Bool) (fs : FileSystem) (r : WriteResult)
    (pre post : List Char)
    (hline : line < md.contents.length)
    (hget : md.contents.getD line [] = pre ++ (url.md ++ post))
    (hnz : url.md ≠ [])
    (hpre : ∀ i < pre.length, ¬url.md.isPrefixOf ((pre ++ (url.md ++ post)).drop i))
    (hpost : ∀ i < post.length, ¬url.md.isPrefixOf (post.drop i))
    (hw : write_corrected_url md [((line, url), [tgt])] dry fs = Except.ok r) :
    r.doc.contents.getD line [] =
      pre ++
        (pathChars
            (relative_path md.filename.dropLast tgt.filename.dropLast ++
              [tgt.filename.getLastD ""]) ++
          post) ∧
      ∀ j, j ≠ line → r.doc.contents.getD j [] = md.contents.getD j [] := by
  have hdoc : r.doc = repairStep md ((line, url), [tgt]) := by
    simpa using write_ok_doc md [((line, url), [tgt])] dry fs r hw
  have hcontents : r.doc.contents =
      md.contents.set line
        (replaceAll url.md
          (pathChars
            (relative_path md.filename.dropLast tgt.filename.dropLast ++
              [tgt.filename.getLastD ""]))
          (md.contents.getD line [])) := by
    rw [hdoc]
    simp [repairStep]
  have hrepl : replaceAll url.md
      (pathChars
        (relative_path md.filename.dropLast tgt.filename.dropLast ++
          [tgt.filename.getLastD ""]))
      (md.contents.getD line []) =
      pre ++
        (pathChars
            (relative_path md.filename.dropLast tgt.filename.dropLast ++
              [tgt.filename.getLastD ""]) ++
          post) := by
    rw [hget]
    unfold replaceAll
    rw [if_neg hnz, replaceAllNE_skip _ _ pre (url.md ++ post) hpre,
      replaceAllNE_head _ _ post hnz, replaceAllNE_of_noOccur _ _ post hpost]
  refine ⟨?_, fun j hj => ?_⟩
  · rw [hcontents, hrepl]
    simp [List.getD_eq_getElem?_getD, List.getElem?_set_self hline]
  · rw [hcontents]
    simp [List.getD_eq_getElem?_getD, List.getElem?_set_ne (Ne.symm hj)]

def tgtC3 : Document := ⟨["docs", "c", "rep.md"], [], []⟩

def mdC3 : Document :=
  ⟨["docs", "a", "x.md"], ["pre [text](../b/rep.md#sec) post\n".toList], []⟩

def urlC3 : Url := ⟨"../b/rep.md".toList⟩

def rC3 : WriteResult :=
  ⟨⟨["docs", "a", "x.md"], ["pre [text](../c/rep.md#sec) post\n".toList], []⟩,
    ⟨[], []⟩, none⟩

theorem write_corrected_url_rewrites_line_witness :
    write_corrected_url mdC3 [((0, urlC3), [tgtC3])] true ⟨[], []⟩ = Except.ok rC3 ∧
      rC3.doc.contents.getD 0 [] =
        "pre [text](".toList ++
          (pathChars
              (relative_path mdC3.filename.dropLast tgtC3.filename.dropLast ++
                [tgtC3.filename.getLastD ""]) ++
            "#sec) post\n".toList) :=
  ⟨by decide,
    (write_corrected_url_rewrites_line mdC3 0 urlC3 tgtC3 true ⟨[], []⟩ rC3
        "pre [text](".toList "#sec) post\n".toList (by decide) (by decide) (by decide)
        (by decide) (by decide) (by decide)).1⟩

/-- C4 (amended): `write_corrected_url` substitutes every occurrence of the
raw target substring in the owning line, not only the first: with two
occurrences (`pre ++ url.md ++ mid ++ url.md ++ post`, occurrences starting
only at the two boundaries), both are replaced by the new path. -/
theorem write_corrected_url_replaces_every_occurrence (md : Document)
    (line : Nat) (url : Url) (tgt : Document) (dry : Bool) (fs : FileSystem)
    (r : WriteResult) (pre mid post : List Char)
    (hline : line < md.contents.length)
    (hget : md.contents.getD line [] = pre ++ (url.md ++ (mid ++ (url.md ++ post))))
    (hnz : url.md ≠ [])
    (hpre : ∀ i < pre.length,
      ¬url.md.isPrefixOf ((pre ++ (url.md ++ (mid ++ (url.md ++ post)))).drop i))
    (hmid : ∀ i < mid.length, ¬url.md.isPrefixOf ((mid ++ (url.md ++ post)).drop i))
    (hpost : ∀ i < post.length, ¬url.md.isPrefixOf (post.drop i))
    (hw : write_corrected_url md [((line, url), [tgt])] dry fs = Except.ok r) :
    r.doc.contents.getD line [] =
      pre ++
        (pathChars
            (relative_path md.filename.dropLast tgt.filename.dropLast ++
              [tgt.filename.getLastD ""]) ++
          (mid ++
            (pathChars
                (relative_path md.filename.dropLast tgt.filename.dropLast ++
                  [tgt.filename.getLastD ""]) ++
              post))) := by
  have hdoc : r.doc = repairStep md ((line, url), [tgt]) := by
    simpa using write_ok_doc md [((line, url), [tgt])] dry fs r hw
  have hcontents : r.doc.contents =
      md.contents.set line
        (replaceAll url.md
          (pathChars
            (relative_path md.filename.dropLast tgt.filename.dropLast ++
              [tgt.filename.getLastD ""]))
          (md.contents.getD line [])) := by
    rw [hdoc]
    simp [repairStep]
  rw [hcontents, hget]
  unfold replaceAll
  rw [if_neg hnz, replaceAllNE_skip _ _ pre (url.md ++ (mid ++ (url.md ++ post))) hpre,
    replaceAllNE_head _ _ (mid ++ (url.md ++ post)) hnz,
    replaceAllNE_skip _ _ mid (url.md ++ post) hmid,
    replaceAllNE_head _ _ post hnz, replaceAllNE_of_noOccur _ _ post hpost]
  simp [List.getD_eq_getElem?_getD, List.getElem?_set_self hline]

def tgtC4 : Document := ⟨["d", "a.md"], [], []⟩

def mdC4 : Document := ⟨["d", "x.md"], ["[x](./a.md) [y](./a.md)\n".toList], []⟩

theorem write_corrected_url_replaces_every_occurrence_witness :
    write_corrected_url mdC4 [((0, ⟨"./a.md".toList⟩), [tgtC4])] true ⟨[], []⟩ =
        Except.ok
          ⟨⟨["d", "x.md"], ["[x](a.md) [y](a.md)\n".toList], []⟩, ⟨[], []⟩, none⟩ ∧
      (⟨⟨["d", "x.md"], ["[x](a.md) [y](a.md)\n".toList], []⟩, ⟨[], []⟩, none⟩ :
            WriteResult).doc.contents.getD 0 [] =
        "[x](".toList ++
          (pathChars
              (relative_path mdC4.filename.dropLast tgtC4.filename.dropLast ++
                [tgtC4.filename.getLastD ""]) ++
            (") [y](".toList ++
              (pathChars
                  (relative_path mdC4.filename.dropLast tgtC4.filename.dropLast ++
                    [tgtC4.filename.getLastD ""]) ++
                ")\n".toList))) :=
  ⟨by decide,
    write_corrected_url_replaces_every_occurrence mdC4 0 ⟨"./a.md".toList⟩ tgtC4
      true ⟨[], []⟩
      ⟨⟨["d", "x.md"], ["[x](a.md) [y](a.md)\n".toList], []⟩, ⟨[], []⟩, none⟩
      "[x](".toList ") [y](".toList ")\n".toList (by decide) (by decide) (by decide)
      (by decide) (by decide) (by decide) (by decide)⟩

/-- C4 (counterexample): on a line carrying the raw target twice, the code
replaces both occurrences (`str.replace` is uncapped), so the result differs
from the claimed substitute-only-the-first rewrite. -/
theorem write_corrected_url_single_substitution_false :
    (write_corrected_url mdC4 [((0, ⟨"./a.md".toList⟩), [tgtC4])] true
          ⟨[], []⟩).map (fun r => r.doc.contents) =
      Except.ok ["[x](a.md) [y](a.md)\n".toList] ∧
      replaceFirst "./a.md".toList "a.md".toList
          "[x](./a.md) [y](./a.md)\n".toList =
        "[x](a.md) [y](./a.md)\n".toList ∧
      ("[x](a.md) [y](a.md)\n".toList : List Char) ≠
        "[x](a.md) [y](./a.md)\n".toList :=
  ⟨by decide, by decide, by decide⟩

/-- C5: with `dry_run` set, `write_corrected_url` performs no file write —
the run succeeds and hands back the file system unchanged, whatever state it
is in; the file is overwritten from the mutated line sequence only when
`dry_run` is false, in which case a successful run's file system holds, at
the document's path, exactly the concatenation of the mutated lines (and the
same read-only set). -/
theorem write_corrected_url_dry_run_frame (md : Document)
    (ps : List (Problem × List Document)) (fs : FileSystem) :
    (∃ r, write_corrected_url md ps true fs = Except.ok r ∧ r.fs = fs) ∧
      ∀ r, write_corrected_url md ps false fs = Except.ok r →
        r.fs.files = storeFile fs.files r.doc.filename r.doc.contents.flatten ∧
          r.fs.readonly = fs.readonly := by
  constructor
  · exact ⟨_, write_dry_run_eq md ps fs, rfl⟩
  · intro r h
    unfold write_corrected_url at h
    simp only [Bool.false_eq_true, if_neg] at h
    unfold fsWrite at h
    by_cases hro : (ps.foldl repairStep md).filename ∈ fs.readonly
    · rw [if_pos hro] at h
      simp [Except.map] at h
    · rw [if_neg hro] at h
      simp only [Except.map] at h
      cases h
      exact ⟨rfl, rfl⟩

def mdW5 : Document := ⟨["m.md"], ["hello\n".toList], []⟩

theorem write_corrected_url_dry_run_frame_witness :
    write_corrected_url mdW5 [] false ⟨[], []⟩ =
        Except.ok ⟨mdW5, ⟨[(["m.md"], "hello\n".toList)], []⟩, none⟩ ∧
      (⟨mdW5, ⟨[(["m.md"], "hello\n".toList)], []⟩, none⟩ : WriteResult).fs.files =
        storeFile (⟨[], []⟩ : FileSystem).files mdW5.filename
          mdW5.contents.flatten :=
  ⟨by decide,
    ((write_corrected_url_dry_run_frame mdW5 [] ⟨[], []⟩).2
        ⟨mdW5, ⟨[(["m.md"], "hello\n".toList)], []⟩, none⟩ (by decide)).1⟩

/-- C9 (amended): the repair-writing operation returns no count of changed
lines: every run of `write_corrected_url` that does not raise returns
Python's `None`. -/
theorem write_corrected_url_returns_none (md : Document)
    (ps : List (Problem × List Document)) (dry : Bool) (fs : FileSystem)
    (r : WriteResult) (h : write_corrected_url md ps dry fs = Except.ok r) :
    r.ret = none :=
  write_ok_ret_aux md ps dry fs r h

theorem write_corrected_url_returns_none_witness :
    write_corrected_url mdW5 [] true ⟨[], []⟩ =
        Except.ok ⟨mdW5, ⟨[], []⟩, none⟩ ∧
      (⟨mdW5, (⟨[], []⟩ : FileSystem), none⟩ : WriteResult).ret = none :=
  ⟨by decide,
    write_corrected_url_returns_none mdW5 [] true ⟨[], []⟩
      ⟨mdW5, ⟨[], []⟩, none⟩ (by decide)⟩

def tgtC9 : Document := ⟨["docs", "c", "r.md"], [], []⟩

def mdC9 : Document :=
  ⟨["docs", "a", "x.md"], ["see [r](../b/r.md).\n".toList], []⟩

/-- C9 (counterexample): a run that changes exactly one line returns `None`,
not the count `1` the claim requires. -/
theorem write_corrected_url_count_not_returned :
    (write_corrected_url mdC9 [((0, ⟨"../b/r.md".toList⟩), [tgtC9])] true
          ⟨[], []⟩).map (fun r => (r.ret, r.doc.contents)) =
      Except.ok ((none : Option Nat), ["see [r](../c/r.md).\n".toList]) ∧
      (mdC9.contents.zip ["see [r](../c/r.md).\n".toList]).countP
          (fun q => decide (q.1 ≠ q.2)) = 1 ∧
      (none : Option Nat) ≠ some 1 :=
  ⟨by decide, by decide, by decide⟩

/-- C10: the in-memory line sequence is rewritten before the `dry_run` flag
is consulted: a dry run returns exactly the document a successful apply-mode
run produces — the same mutated `contents` — while handing back the file
system untouched. -/
theorem write_corrected_url_mutates_in_dry_run (md : Document)
    (ps : List (Problem × List Document)) (fs fs₂ : FileSystem) (r₂ : WriteResult)
    (h : write_corrected_url md ps false fs₂ = Except.ok r₂) :
    write_corrected_url md ps true fs = Except.ok ⟨r₂.doc, fs, none⟩ := by
  rw [write_ok_doc md ps false fs₂ r₂ h]
  exact write_dry_run_eq md ps fs

def rC10 : WriteResult :=
  ⟨⟨["docs", "a", "x.md"], ["see [r](../c/r.md).\n".toList], []⟩,
    ⟨[(["docs", "a", "x.md"], "see [r](../c/r.md).\n".toList)], []⟩, none⟩

theorem write_corrected_url_mutates_in_dry_run_witness :
    write_corrected_url mdC9 [((0, ⟨"../b/r.md".toList⟩), [tgtC9])] false
        ⟨[], []⟩ = Except.ok rC10 ∧
      write_corrected_url mdC9 [((0, ⟨"../b/r.md".toList⟩), [tgtC9])] true
          ⟨[], []⟩ = Except.ok ⟨rC10.doc, ⟨[], []⟩, none⟩ ∧
      rC10.doc.contents ≠ mdC9.contents :=
  ⟨by decide,
    write_corrected_url_mutates_in_dry_run mdC9
      [((0, ⟨"../b/r.md".toList⟩), [tgtC9])] ⟨[], []⟩ ⟨[], []⟩ rC10 (by decide),
    by decide⟩

/-- C6 (amended): an I/O error raised while writing one document's repairs
aborts the whole pass: there is no handler around `write_corrected_url` in
the `links` loop, so the error propagates and no later document is
processed. -/
theorem repair_exact_matches_aborts (d : Document)
    (ps : List (Problem × List Document))
    (rest : List (Document × List (Problem × List Document))) (dry : Bool)
    (fs : FileSystem) (e : IOErr)
    (h : write_corrected_url d ps dry fs = Except.error e) :
    repair_exact_matches ((d, ps) :: rest) dry fs = Except.error e := by
  unfold repair_exact_matches
  rw [List.foldlM_cons]
  simp only [h, Except.map]
  rfl

def tgtC6 : Document := ⟨["docs", "sub", "gone.md"], [], []⟩

def d1C6 : Document := ⟨["docs", "one.md"], ["a [l](./gone.md) x\n".toList], []⟩

def d2C6 : Document := ⟨["docs", "two.md"], ["b [l](./gone.md) y\n".toList], []⟩

def fsC6 : FileSystem :=
  ⟨[(["docs", "one.md"], "a [l](./gone.md) x\n".toList),
      (["docs", "two.md"], "b [l](./gone.md) y\n".toList)],
    [["docs", "one.md"]]⟩

def psC6 : List (Problem × List Document) := [((0, ⟨"./gone.md".toList⟩), [tgtC6])]

theorem repair_exact_matches_aborts_witness :
    write_corrected_url d1C6 psC6 false fsC6 =
        Except.error ⟨["docs", "one.md"]⟩ ∧
      repair_exact_matches [(d1C6, psC6), (d2C6, psC6)] false fsC6 =
        Except.error ⟨["docs", "one.md"]⟩ :=
  ⟨by decide,
    repair_exact_matches_aborts d1C6 psC6 [(d2C6, psC6)] false fsC6
      ⟨["docs", "one.md"]⟩ (by decide)⟩

/-- C6 (counterexample): with the first document's file unwritable, the pass
over both documents stops with the error — the second document's repair,
which succeeds when it is processed alone, is never applied. -/
theorem repair_continues_after_error_false :
    repair_exact_matches [(d1C6, psC6), (d2C6, psC6)] false fsC6 =
        Except.error ⟨["docs", "one.md"]⟩ ∧
      repair_exact_matches [(d2C6, psC6)] false fsC6 =
        Except.ok
          ⟨[(["docs", "one.md"], "a [l](./gone.md) x\n".toList),
              (["docs", "two.md"], "b [l](sub/gone.md) y\n".toList)],
            [["docs", "one.md"]]⟩ ∧
      repair_exact_matches [(d1C6, psC6), (d2C6, psC6)] false fsC6 ≠
        repair_exact_matches [(d2C6, psC6)] false fsC6 :=
  ⟨by decide, by decide, by decide⟩

end Repair
